import Mathlib

/-!
# Index key codec of the ORM key-value encoding layer

A shallow embedding of `orm/encoding/ormkv/index_key.go`: the construction of
an `IndexKeyCodec` (merged key fields and the primary-key position map), and
its `DecodeIndexKey`, `DecodeEntry`, `EncodeEntry` and `EncodeKVFromMessage`
methods.

Conventions of the embedding.

* A Go slice is an `Option (List α)`: `none` is the nil slice, `some l` a
  non-nil slice with elements `l`. Slices that are only read through `len`,
  indexing and `range` (`indexFields`, `primaryKeyFields`, `keyFields`,
  `fieldCodecs`, `fieldNames`, `pkFieldOrder`) are plain lists.
* A Go `int` is an `Int`; all integers here are slice lengths or positions, far
  from the 64-bit range.
* A Go `error` is an `Option Error`, `none` being the nil error.
* A Go pointer held by an interface value is an `Option`, `none` being the nil
  pointer.
* A function that may stop with a run-time panic (an index out of range, a nil
  pointer dereference) returns an `Option`, `none` being the panic.
-/

namespace Ormkv

/-! ## Basic types -/

/-- A byte of a key or of a value. -/
abbrev Byte := Fin 256

/-- A Go slice: `none` is nil, `some l` is a non-nil slice holding `l`. -/
abbrev Slice (α : Type) := Option (List α)

/-- Go `len` of a slice; the nil slice has length zero. -/
def Slice.len {α : Type} : Slice α → Int
  | none => 0
  | some l => (l.length : Int)

/-- Go indexing `s[i]` of a list-backed slice with an `int` index; `none` is the
index-out-of-range panic. -/
def listIndex {α : Type} (l : List α) (i : Int) : Option α :=
  if i < 0 then none else l[i.toNat]?

/-- Go indexing `s[i]`; indexing the nil slice always panics. -/
def Slice.index {α : Type} : Slice α → Int → Option α
  | none, _ => none
  | some l, i => listIndex l i

/-- The type `protoreflect.Name`, a field name. -/
abbrev Name := String

/-- The type `protoreflect.FullName`, the full name of a message (table). -/
abbrev FullName := String

/-- Go error values, compared by `==`: `io.EOF`, `ormerrors.BadDecodeEntry`, and
any other error, told apart by its message. -/
inductive Error where
  | EOF
  | BadDecodeEntry
  | other (msg : String)
  deriving DecidableEq, Repr

/-- A Go `map[K]V` with the two operations the code uses: lookup `m[k]` with the
`ok` flag (`none` when absent) and assignment `m[k] = v`. -/
abbrev GoMap (κ ν : Type) := κ → Option ν

/-- The empty map literal. -/
def GoMap.empty {κ ν : Type} : GoMap κ ν := fun _ => none

/-- Map assignment `m[k] = v`: a later assignment to the same key overwrites. -/
def GoMap.set {κ ν : Type} [DecidableEq κ] (m : GoMap κ ν) (k : κ) (v : ν) : GoMap κ ν :=
  fun k' => if k' = k then some v else m k'

/-- Modelled from the spec: the Key Codec (its source file is not among the
sources). It owns the ordered field names, one field codec per field, and the
three operations the index key codec delegates to; `Decode` reads the bytes of
the reader, and every operation returns its Go result tuple. -/
structure KeyCodec (V M FC : Type) where
  fieldCodecs : List FC
  fieldNames : List Name
  Decode : List Byte → Slice V × Option Error
  Encode : Slice V → Slice Byte × Option Error
  EncodeFromMessage : M → Slice V × Slice Byte × Option Error

/-- Modelled from the spec: the schema descriptor of a table, of which this
code uses the full name only; `schema` stands for everything else it exposes. -/
structure MessageDescriptor (S : Type) where
  FullName : FullName
  schema : S

/-- The struct `IndexKeyCodec`: the embedded key codec, the table name and the
primary-key position map. -/
structure IndexKeyCodec (V M FC : Type) where
  KeyCodec : KeyCodec V M FC
  tableName : FullName
  pkFieldOrder : List Int

/-- The entry variant `IndexKeyEntry`, with the fields `DecodeEntry` fills. -/
structure IndexKeyEntry (V : Type) where
  TableName : FullName
  Fields : List Name
  IndexValues : Slice V
  PrimaryKey : Slice V

/-- Modelled from the spec: the sibling entry variant for primary keys (table
name, primary-key values, decoded record); its declaration is not among the
sources. -/
structure PrimaryKeyEntry (V M : Type) where
  TableName : FullName
  Key : Slice V
  Value : M

/-- The interface `Entry`: the nil interface value, or an interface value holding
a pointer of type `*PrimaryKeyEntry` or `*IndexKeyEntry`; the pointer it holds
may itself be nil (`none`). -/
inductive Entry (V M : Type) where
  | nil
  | primaryKeyEntry (e : Option (PrimaryKeyEntry V M))
  | indexKeyEntry (e : Option (IndexKeyEntry V))

/-! ## NewIndexKeyCodec -/

/-- State of the first loop of `NewIndexKeyCodec`. -/
structure IndexLoopState where
  indexFieldMap : GoMap Name Int
  keyFields : List Name

/-- Body of `for i, f := range indexFields`. -/
def indexLoopBody (st : IndexLoopState) (i : Nat) (f : Name) : IndexLoopState :=
  { indexFieldMap := st.indexFieldMap.set f (i : Int),
    keyFields := st.keyFields ++ [f] }

/-- The loop `for i, f := range indexFields`, started at position `i`. -/
def indexLoop : List Name → Nat → IndexLoopState → IndexLoopState
  | [], _, st => st
  | f :: fs, i, st => indexLoop fs (i + 1) (indexLoopBody st i f)

/-- State of the second loop of `NewIndexKeyCodec`. -/
structure PkLoopState where
  keyFields : List Name
  pkFieldOrder : List Int
  k : Int

/-- Body of `for j, f := range primaryKeyFields`. -/
def pkLoopBody (indexFieldMap : GoMap Name Int) (numIndexFields : Int)
    (st : PkLoopState) (j : Nat) (f : Name) : PkLoopState :=
  match indexFieldMap f with
  | some i => { st with pkFieldOrder := st.pkFieldOrder.set j i }
  | none =>
    { keyFields := st.keyFields ++ [f],
      pkFieldOrder := st.pkFieldOrder.set j (numIndexFields + st.k),
      k := st.k + 1 }

/-- The loop `for j, f := range primaryKeyFields`, started at position `j`. -/
def pkLoop (indexFieldMap : GoMap Name Int) (numIndexFields : Int) :
    List Name → Nat → PkLoopState → PkLoopState
  | [], _, st => st
  | f :: fs, j, st =>
    pkLoop indexFieldMap numIndexFields fs (j + 1) (pkLoopBody indexFieldMap numIndexFields st j f)

/-- The two loops of `NewIndexKeyCodec`, up to the call of `NewKeyCodec`: the
final `keyFields` and `pkFieldOrder`. -/
def buildKeyFields (indexFields primaryKeyFields : List Name) : PkLoopState :=
  let st1 := indexLoop indexFields 0 { indexFieldMap := GoMap.empty, keyFields := [] }
  let numIndexFields : Int := (indexFields.length : Int)
  let numPrimaryKeyFields := primaryKeyFields.length
  pkLoop st1.indexFieldMap numIndexFields primaryKeyFields 0
    { keyFields := st1.keyFields,
      pkFieldOrder := List.replicate numPrimaryKeyFields 0,
      k := 0 }

/-- The function `NewIndexKeyCodec`. The constructor `NewKeyCodec` of the key codec
is not among the sources and is a parameter. -/
def NewIndexKeyCodec {V M FC S : Type}
    (NewKeyCodec : List Byte → MessageDescriptor S → List Name → Except Error (KeyCodec V M FC))
    (pfx : List Byte) (messageDescriptor : MessageDescriptor S)
    (indexFields primaryKeyFields : List Name) : Except Error (IndexKeyCodec V M FC) :=
  let st := buildKeyFields indexFields primaryKeyFields
  match NewKeyCodec pfx messageDescriptor st.keyFields with
  | .error err => .error err
  | .ok cdc =>
    .ok { KeyCodec := cdc,
          pkFieldOrder := st.pkFieldOrder,
          tableName := messageDescriptor.FullName }

/-! ## Decoding -/

/-- The reader `bytes.NewReader(k)`: the bytes it will yield (none for nil). -/
def bytesNewReader (k : Slice Byte) : List Byte :=
  match k with
  | none => []
  | some l => l

/-- Result tuple `(indexFields, primaryKey, err)` of `DecodeIndexKey`. -/
structure IndexKeyResult (V : Type) where
  indexFields : Slice V
  primaryKey : Slice V
  err : Option Error
  deriving DecidableEq

/-- The loop `for i := 0; i < numPkFields; i++ { pkValues[i] = values[cdc.pkFieldOrder[i]] }`
run from position `i` for `n` more rounds; `none` is an index-out-of-range
panic. -/
def pkValuesLoop {V : Type} (values : Slice V) (pkFieldOrder : List Int) :
    Nat → Nat → List V → Option (List V)
  | 0, _, pkValues => some pkValues
  | n + 1, i, pkValues =>
    match listIndex pkFieldOrder (i : Int) with
    | none => none
    | some p =>
      match values.index p with
      | none => none
      | some x =>
        if i < pkValues.length then pkValuesLoop values pkFieldOrder n (i + 1) (pkValues.set i x)
        else none

/-- The method `IndexKeyCodec.DecodeIndexKey`; `default` is the zero
`protoreflect.Value` that `make` fills `pkValues` with. -/
def DecodeIndexKey {V M FC : Type} [Inhabited V] (cdc : IndexKeyCodec V M FC)
    (k _v : Slice Byte) : Option (IndexKeyResult V) :=
  let (values, err) := cdc.KeyCodec.Decode (bytesNewReader k)
  if err = some Error.EOF then
    some { indexFields := values, primaryKey := none, err := none }
  else if err ≠ none then
    some { indexFields := none, primaryKey := none, err := err }
  else if values.len < (cdc.KeyCodec.fieldCodecs.length : Int) then
    some { indexFields := values, primaryKey := none, err := none }
  else
    let numPkFields := cdc.pkFieldOrder.length
    let pkValues : List V := List.replicate numPkFields default
    match pkValuesLoop values cdc.pkFieldOrder numPkFields 0 pkValues with
    | none => none
    | some pkValues => some { indexFields := values, primaryKey := some pkValues, err := none }

/-- Result tuple `(Entry, error)` of `DecodeEntry`. -/
structure EntryResult (V M : Type) where
  entry : Entry V M
  err : Option Error

/-- The method `IndexKeyCodec.DecodeEntry`. -/
def DecodeEntry {V M FC : Type} [Inhabited V] (cdc : IndexKeyCodec V M FC)
    (k v : Slice Byte) : Option (EntryResult V M) :=
  match DecodeIndexKey cdc k v with
  | none => none
  | some r =>
    if r.err ≠ none then
      some { entry := Entry.nil, err := r.err }
    else
      some { entry := Entry.indexKeyEntry
                (some { TableName := cdc.tableName,
                        Fields := cdc.KeyCodec.fieldNames,
                        IndexValues := r.indexFields,
                        PrimaryKey := r.primaryKey }),
             err := none }

/-! ## Encoding -/

/-- Result tuple `(k, v, err)` of the encoders. -/
structure KVResult where
  k : Slice Byte
  v : Slice Byte
  err : Option Error
  deriving DecidableEq

/-- The package variable `sentinel = []byte{0}`. -/
def sentinel : Slice Byte := some [0]

/-- The method `IndexKeyCodec.EncodeEntry`. The type assertion
`entry.(*IndexKeyEntry)` succeeds on every interface value holding a
`*IndexKeyEntry`, the nil pointer included; reading `indexEntry.TableName`
through the nil pointer is a run-time panic (`none`). -/
def EncodeEntry {V M FC : Type} (i : IndexKeyCodec V M FC) (entry : Entry V M) :
    Option KVResult :=
  match entry with
  | Entry.indexKeyEntry none => none
  | Entry.indexKeyEntry (some indexEntry) =>
    if indexEntry.TableName ≠ i.tableName then
      some { k := none, v := none, err := some Error.BadDecodeEntry }
    else
      let (bz, err) := i.KeyCodec.Encode indexEntry.IndexValues
      if err ≠ none then
        some { k := none, v := none, err := err }
      else
        some { k := bz, v := sentinel, err := none }
  | _ => some { k := none, v := none, err := some Error.BadDecodeEntry }

/-- The method `IndexKeyCodec.EncodeKVFromMessage`. -/
def EncodeKVFromMessage {V M FC : Type} (cdc : IndexKeyCodec V M FC) (message : M) : KVResult :=
  let (_, k, err) := cdc.KeyCodec.EncodeFromMessage message
  { k := k, v := sentinel, err := err }

/-! ## Functional descriptions of the loops -/

/-- The positions the second loop writes, for the primary-key fields `P` read
with tail counter `k`: the map entry of a field the map knows, otherwise the next
tail position. -/
def orderList (m : GoMap Name Int) (numIndexFields : Int) : Int → List Name → List Int
  | _, [] => []
  | k, f :: fs =>
    match m f with
    | some i => i :: orderList m numIndexFields k fs
    | none => (numIndexFields + k) :: orderList m numIndexFields (k + 1) fs

/-- The fields the second loop appends: those the map does not know. -/
def tailFields (m : GoMap Name Int) (P : List Name) : List Name :=
  P.filter (fun f => (m f).isNone)

/-- The index map after the first loop. -/
def indexFieldMapOf (I : List Name) : GoMap Name Int :=
  (indexLoop I 0 { indexFieldMap := GoMap.empty, keyFields := [] }).indexFieldMap

/-- Reading every position of `ps` in `values`; `none` as soon as one read is out of
range. -/
def lookupAll {V : Type} (values : Slice V) : List Int → Option (List V)
  | [] => some []
  | p :: ps =>
    match values.index p with
    | none => none
    | some x => (lookupAll values ps).map (fun xs => x :: xs)

/-- The values of a record for a sequence of fields. -/
def recordValues {V : Type} (r : Name → V) (fields : List Name) : List V :=
  fields.map r

/-! ## Example codec -/

/-- A small key codec for the examples: every value is one byte after the fixed
key bytes `pfx`; a key that stops before the last field decodes to the values
read so far together with the error `short` (`io.EOF`, or no error). -/
def exampleKeyCodec (short : Option Error) (pfx : List Byte) (fields : List Name) :
    KeyCodec Int (Name → Int) Unit :=
  { fieldCodecs := fields.map (fun _ => ()),
    fieldNames := fields,
    Decode := fun bs =>
      if pfx.isPrefixOf bs then
        let vals := ((bs.drop pfx.length).take fields.length).map (fun b => (b.val : Int))
        (some vals, if vals.length < fields.length then short else none)
      else (none, some (Error.other "bad key bytes")),
    Encode := fun vs =>
      match vs with
      | none => (none, some (Error.other "field count"))
      | some l =>
        if l.length = fields.length then
          (some (pfx ++ l.map (fun x => Fin.ofNat x.toNat)), none)
        else (none, some (Error.other "field count")),
    EncodeFromMessage := fun r =>
      (some (fields.map r), some (pfx ++ (fields.map r).map (fun x => Fin.ofNat x.toNat)), none) }

/-- The constructor of the example key codec. -/
def exampleNewKeyCodec (short : Option Error) (pfx : List Byte) (_md : MessageDescriptor Unit)
    (fields : List Name) : Except Error (KeyCodec Int (Name → Int) Unit) :=
  .ok (exampleKeyCodec short pfx fields)

/-- The descriptor of the example table. -/
def exampleDescriptor : MessageDescriptor Unit := { FullName := "person", schema := () }

/-- The example record `{id: 7, age: 30}`. -/
def exampleRecord : Name → Int := fun f => if f = "id" then 7 else if f = "age" then 30 else 0

/-- The index key codec for index fields `[age]` and primary key `[id]`. -/
def ageIndexCodec (short : Option Error) : IndexKeyCodec Int (Name → Int) Unit :=
  { KeyCodec := exampleKeyCodec short [1] ["age", "id"],
    tableName := "person",
    pkFieldOrder := [1] }

/-- The index key codec for index fields `[id, age]` and primary key `[id]`. -/
def idAgeIndexCodec (short : Option Error) : IndexKeyCodec Int (Name → Int) Unit :=
  { KeyCodec := exampleKeyCodec short [1] ["id", "age"],
    tableName := "person",
    pkFieldOrder := [0] }

/-- An index-key entry of the table `table` with merged values `[30, 7]`. -/
def exampleEntry (table : FullName) (fields : List Name) (pk : Slice Int) : IndexKeyEntry Int :=
  { TableName := table, Fields := fields, IndexValues := some [30, 7], PrimaryKey := pk }

/-- A key codec for the examples whose encoders fail although they hand back the
key byte `[1]` they had written. -/
def failingKeyCodec : KeyCodec Int (Name → Int) Unit :=
  { fieldCodecs := [(), ()],
    fieldNames := ["age", "id"],
    Decode := fun _ => (none, some (Error.other "decode")),
    Encode := fun _ => (some [1], some (Error.other "encode")),
    EncodeFromMessage := fun _ => (none, some [1], some (Error.other "encode")) }

/-- The index key codec over the failing key codec. -/
def failingIndexCodec : IndexKeyCodec Int (Name → Int) Unit :=
  { KeyCodec := failingKeyCodec, tableName := "person", pkFieldOrder := [1] }

/-! ## The loops of NewIndexKeyCodec -/

theorem set_at_length {α : Type} (A : List α) (y x : α) (B : List α) :
    (A ++ y :: B).set A.length x = A ++ x :: B := by
  induction A with
  | nil => rfl
  | cons a A ih => simp [ih]

theorem indexLoop_keyFields (I : List Name) :
    ∀ (i : Nat) (st : IndexLoopState), (indexLoop I i st).keyFields = st.keyFields ++ I := by
  induction I with
  | nil => intro i st; simp [indexLoop]
  | cons f fs ih =>
    intro i st
    simp [indexLoop, ih, indexLoopBody]

theorem indexLoop_map_none (I : List Name) (g : Name) :
    ∀ (i : Nat) (st : IndexLoopState),
      (indexLoop I i st).indexFieldMap g = none ↔ st.indexFieldMap g = none ∧ g ∉ I := by
  induction I with
  | nil => intro i st; simp [indexLoop]
  | cons f fs ih =>
    intro i st
    rw [indexLoop, ih]
    by_cases hg : g = f
    · simp [indexLoopBody, GoMap.set, hg]
    · simp [indexLoopBody, GoMap.set, hg]

theorem indexLoop_map_some (I : List Name) (g : Name) (p : Int) :
    ∀ (i : Nat) (st : IndexLoopState),
      (indexLoop I i st).indexFieldMap g = some p →
        (st.indexFieldMap g = some p ∧ g ∉ I) ∨
        ∃ n : Nat, p = ((i + n : Nat) : Int) ∧ I[n]? = some g ∧
          ∀ n2 : Nat, n < n2 → I[n2]? ≠ some g := by
  induction I with
  | nil => intro i st h; left; simpa [indexLoop] using h
  | cons f fs ih =>
    intro i st h
    rw [indexLoop] at h
    rcases ih (i + 1) _ h with ⟨h1, h2⟩ | ⟨n, hp, hn, hlast⟩
    · by_cases hg : g = f
      · right
        refine ⟨0, ?_, ?_, ?_⟩
        · simp [indexLoopBody, GoMap.set, hg] at h1
          simp [h1]
        · simp [hg]
        · intro n2 hn2 hget
          obtain ⟨m, rfl⟩ : ∃ m, n2 = m + 1 := ⟨n2 - 1, by omega⟩
          simp at hget
          exact h2 (List.mem_iff_getElem?.mpr ⟨m, hget⟩)
      · left
        simp [indexLoopBody, GoMap.set, hg] at h1
        exact ⟨h1, by simp [hg, h2]⟩
    · right
      refine ⟨n + 1, ?_, ?_, ?_⟩
      · rw [hp]; congr 1; omega
      · simpa using hn
      · intro n2 hn2 hget
        obtain ⟨m, rfl⟩ : ∃ m, n2 = m + 1 := ⟨n2 - 1, by omega⟩
        simp at hget
        exact hlast m (by omega) hget

theorem pkLoop_eq (m : GoMap Name Int) (nI : Int) (P : List Name) :
    ∀ (A C : List Int) (kf : List Name) (k : Int),
      pkLoop m nI P A.length
          { keyFields := kf, pkFieldOrder := A ++ List.replicate P.length 0 ++ C, k := k } =
        { keyFields := kf ++ tailFields m P,
          pkFieldOrder := A ++ orderList m nI k P ++ C,
          k := k + ((tailFields m P).length : Int) } := by
  induction P with
  | nil => intro A C kf k; simp [pkLoop, tailFields, orderList]
  | cons f fs ih =>
    intro A C kf k
    rw [pkLoop]
    cases hm : m f with
    | some i =>
      have hset : (A ++ List.replicate (f :: fs).length 0 ++ C).set A.length i =
          (A ++ [i]) ++ List.replicate fs.length 0 ++ C := by
        have := set_at_length A 0 i (List.replicate fs.length 0 ++ C)
        simp [List.replicate_succ, this]
      have hb : pkLoopBody m nI
          { keyFields := kf, pkFieldOrder := A ++ List.replicate (f :: fs).length 0 ++ C, k := k }
          A.length f =
          { keyFields := kf, pkFieldOrder := (A ++ [i]) ++ List.replicate fs.length 0 ++ C,
            k := k } := by
        simp only [pkLoopBody, hm, hset]
      have hl : A.length + 1 = (A ++ [i]).length := by simp
      rw [hb, hl, ih]
      simp [tailFields, orderList, hm]
    | none =>
      have hset : (A ++ List.replicate (f :: fs).length 0 ++ C).set A.length (nI + k) =
          (A ++ [nI + k]) ++ List.replicate fs.length 0 ++ C := by
        have := set_at_length A 0 (nI + k) (List.replicate fs.length 0 ++ C)
        simp [List.replicate_succ, this]
      have hb : pkLoopBody m nI
          { keyFields := kf, pkFieldOrder := A ++ List.replicate (f :: fs).length 0 ++ C, k := k }
          A.length f =
          { keyFields := kf ++ [f],
            pkFieldOrder := (A ++ [nI + k]) ++ List.replicate fs.length 0 ++ C,
            k := k + 1 } := by
        simp only [pkLoopBody, hm, hset]
      have hl : A.length + 1 = (A ++ [nI + k]).length := by simp
      rw [hb, hl, ih]
      simp [tailFields, orderList, hm]
      omega

/-- What the two loops compute: the merged fields are the index fields followed
by the fields the map does not know, and the position map is `orderList`. -/
theorem buildKeyFields_eq (I P : List Name) :
    buildKeyFields I P =
      { keyFields := I ++ tailFields (indexFieldMapOf I) P,
        pkFieldOrder := orderList (indexFieldMapOf I) (I.length : Int) 0 P,
        k := ((tailFields (indexFieldMapOf I) P).length : Int) } := by
  have h := pkLoop_eq (indexFieldMapOf I) (I.length : Int) P [] []
    (indexLoop I 0 { indexFieldMap := GoMap.empty, keyFields := [] }).keyFields 0
  simp only [List.length_nil, List.nil_append, List.append_nil] at h
  simp only [buildKeyFields]
  rw [show (indexLoop I 0 { indexFieldMap := GoMap.empty, keyFields := [] }).indexFieldMap =
    indexFieldMapOf I from rfl, h, indexLoop_keyFields]
  simp

theorem indexFieldMapOf_none (I : List Name) (g : Name) :
    indexFieldMapOf I g = none ↔ g ∉ I := by
  simp [indexFieldMapOf, indexLoop_map_none, GoMap.empty]

theorem indexFieldMapOf_some (I : List Name) (g : Name) (p : Int)
    (h : indexFieldMapOf I g = some p) :
    ∃ n : Nat, p = (n : Int) ∧ I[n]? = some g ∧ ∀ n2 : Nat, n < n2 → I[n2]? ≠ some g := by
  rcases indexLoop_map_some I g p 0 _ h with ⟨h1, _⟩ | ⟨n, hp, hn, hlast⟩
  · simp [GoMap.empty] at h1
  · exact ⟨n, by simpa using hp, hn, hlast⟩

theorem tailFields_indexFieldMapOf (I P : List Name) :
    tailFields (indexFieldMapOf I) P = P.filter (fun f => decide (f ∉ I)) := by
  unfold tailFields
  apply List.filter_congr
  intro f _
  by_cases hf : f ∈ I
  · have : indexFieldMapOf I f ≠ none := fun h => (indexFieldMapOf_none I f).mp h hf
    cases hm : indexFieldMapOf I f with
    | none => exact absurd hm this
    | some p => simp [hf]
  · have := (indexFieldMapOf_none I f).mpr hf
    simp [this, hf]

/-! ## The lookup loop of DecodeIndexKey -/

theorem getElem?_at_length {α : Type} (A : List α) (p : α) (B : List α) :
    (A ++ p :: B)[A.length]? = some p := by
  induction A with
  | nil => simp
  | cons a A ih => simpa using ih

theorem listIndex_at_length {α : Type} (A : List α) (p : α) (B : List α) :
    listIndex (A ++ p :: B) (A.length : Int) = some p := by
  have h : ¬ ((A.length : Int) < 0) := by omega
  simp only [listIndex, h, if_false, Int.toNat_ofNat, getElem?_at_length]

theorem pkValuesLoop_eq {V : Type} (values : Slice V) (d : V) (rest : List Int) :
    ∀ (pre : List Int) (A : List V), A.length = pre.length →
      pkValuesLoop values (pre ++ rest) rest.length pre.length (A ++ List.replicate rest.length d) =
        (lookupAll values rest).map (fun xs => A ++ xs) := by
  induction rest with
  | nil => intro pre A _; simp [pkValuesLoop, lookupAll]
  | cons p ps ih =>
    intro pre A hA
    simp only [List.length_cons, pkValuesLoop, listIndex_at_length, lookupAll]
    cases hx : values.index p with
    | none => simp
    | some x =>
      have hlt : pre.length < (A ++ List.replicate (ps.length + 1) d).length := by
        simp [hA]
      have hset : (A ++ List.replicate (ps.length + 1) d).set pre.length x =
          (A ++ [x]) ++ List.replicate ps.length d := by
        have := set_at_length A d x (List.replicate ps.length d)
        simp [List.replicate_succ, ← hA, this]
      have hpre : pre ++ p :: ps = (pre ++ [p]) ++ ps := by simp
      have hl : pre.length + 1 = (pre ++ [p]).length := by simp
      simp only [hlt, if_true, hset]
      rw [hpre, hl, ih (pre ++ [p]) (A ++ [x]) (by simp [hA])]
      cases lookupAll values ps <;> simp

/-- The lookup loop of `DecodeIndexKey` reads the positions of `pkFieldOrder` in
order, and panics exactly when one of them is out of range. -/
theorem pkValuesLoop_lookupAll {V : Type} (values : Slice V) (d : V) (order : List Int) :
    pkValuesLoop values order order.length 0 (List.replicate order.length d) =
      lookupAll values order := by
  have h := pkValuesLoop_eq values d order [] [] rfl
  simp only [List.nil_append, List.length_nil] at h
  rw [h]
  cases lookupAll values order <;> simp

/-- The method `DecodeIndexKey` on a key that decodes in full. -/
theorem DecodeIndexKey_full {V M FC : Type} [Inhabited V] (cdc : IndexKeyCodec V M FC)
    (k v : Slice Byte) (values : Slice V)
    (hdec : cdc.KeyCodec.Decode (bytesNewReader k) = (values, none))
    (hlen : ¬ values.len < (cdc.KeyCodec.fieldCodecs.length : Int)) :
    DecodeIndexKey cdc k v =
      (lookupAll values cdc.pkFieldOrder).map
        (fun pk => { indexFields := values, primaryKey := some pk, err := none }) := by
  simp only [DecodeIndexKey, hdec, hlen, pkValuesLoop_lookupAll]
  cases lookupAll values cdc.pkFieldOrder <;> simp

theorem lookupAll_map {V W : Type} (g : V → W) (l : List V) (ps : List Int) (xs : List V)
    (h : lookupAll (some l) ps = some xs) :
    lookupAll (some (l.map g)) ps = some (xs.map g) := by
  induction ps generalizing xs with
  | nil => simp [lookupAll] at h ⊢; simp [← h]
  | cons p ps ih =>
    simp only [lookupAll, Slice.index, listIndex] at h ⊢
    by_cases hp : p < 0
    · simp [hp] at h
    · simp only [hp, if_false] at h ⊢
      cases hx : l[p.toNat]? with
      | none => simp [hx] at h
      | some x =>
        simp only [hx] at h
        cases hr : lookupAll (some l) ps with
        | none => simp [hr] at h
        | some ys =>
          simp only [hr, Option.map_some', Option.some.injEq] at h
          simp [List.getElem?_map, hx, ih ys hr, ← h]

/-- The position map points at the right fields: reading the merged field
sequence at the positions of `orderList` gives back the primary-key fields. -/
theorem lookupAll_orderList (I : List Name) (Prest : List Name) :
    ∀ T : List Name,
      lookupAll (some (I ++ T ++ tailFields (indexFieldMapOf I) Prest))
          (orderList (indexFieldMapOf I) (I.length : Int) (T.length : Int) Prest) =
        some Prest := by
  induction Prest with
  | nil => intro T; simp [orderList, lookupAll]
  | cons f fs ih =>
    intro T
    cases hm : indexFieldMapOf I f with
    | some i =>
      obtain ⟨n, rfl, hn, _⟩ := indexFieldMapOf_some I f i hm
      have hlt : n < I.length := by
        rcases Nat.lt_or_ge n I.length with h | h
        · exact h
        · rw [List.getElem?_eq_none h] at hn; exact absurd hn (by simp)
      have htail : tailFields (indexFieldMapOf I) (f :: fs) =
          tailFields (indexFieldMapOf I) fs := by
        simp [tailFields, hm]
      have hnn : ¬ ((n : Int) < 0) := by omega
      have hget : (I ++ T ++ tailFields (indexFieldMapOf I) fs)[(n : Int).toNat]? = some f := by
        rw [Int.toNat_ofNat, List.append_assoc, List.getElem?_append_left hlt]; exact hn
      simp only [orderList, hm, lookupAll, htail, Slice.index, listIndex, hnn, if_false, hget,
        ih T]
      simp
    | none =>
      have htail : tailFields (indexFieldMapOf I) (f :: fs) =
          f :: tailFields (indexFieldMapOf I) fs := by
        simp [tailFields, hm]
      have hidx : ((I.length : Int) + (T.length : Int)).toNat = (I ++ T).length := by
        simp; omega
      have hget : (I ++ T ++ f :: tailFields (indexFieldMapOf I) fs)[(I ++ T).length]? =
          some f := getElem?_at_length (I ++ T) f _
      have hnn : ¬ ((I.length : Int) + (T.length : Int) < 0) := by omega
      have ih2 := ih (T ++ [f])
      simp only [List.length_append, List.length_singleton, Nat.cast_add, Nat.cast_one,
        List.append_assoc, List.singleton_append] at ih2
      have ih3 : lookupAll (some (I ++ T ++ f :: tailFields (indexFieldMapOf I) fs))
          (orderList (indexFieldMapOf I) (I.length : Int) ((T.length : Int) + 1) fs) = some fs := by
        rw [List.append_assoc]; exact ih2
      simp only [orderList, hm, lookupAll, htail, Slice.index, listIndex, hnn, if_false, hidx,
        hget, ih3]
      simp

theorem orderList_length (m : GoMap Name Int) (nI : Int) (P : List Name) :
    ∀ k : Int, (orderList m nI k P).length = P.length := by
  induction P with
  | nil => intro k; rfl
  | cons f fs ih =>
    intro k
    cases hm : m f <;> simp [orderList, hm, ih]

theorem orderList_bounds (I : List Name) (P : List Name) :
    ∀ k : Int, 0 ≤ k → ∀ e ∈ orderList (indexFieldMapOf I) (I.length : Int) k P,
      0 ≤ e ∧ e < (I.length : Int) + k + ((tailFields (indexFieldMapOf I) P).length : Int) := by
  induction P with
  | nil => intro k _ e he; simp [orderList] at he
  | cons f fs ih =>
    intro k hk e he
    cases hm : indexFieldMapOf I f with
    | some i =>
      have htail : tailFields (indexFieldMapOf I) (f :: fs) =
          tailFields (indexFieldMapOf I) fs := by
        simp [tailFields, hm]
      simp only [orderList, hm, List.mem_cons] at he
      rw [htail]
      rcases he with rfl | he
      · obtain ⟨n, rfl, hn, _⟩ := indexFieldMapOf_some I f e hm
        have hlt : n < I.length := by
          rcases Nat.lt_or_ge n I.length with h | h
          · exact h
          · rw [List.getElem?_eq_none h] at hn; exact absurd hn (by simp)
        omega
      · exact ih k hk e he
    | none =>
      have htail : tailFields (indexFieldMapOf I) (f :: fs) =
          f :: tailFields (indexFieldMapOf I) fs := by
        simp [tailFields, hm]
      simp only [orderList, hm, List.mem_cons] at he
      rw [htail]
      simp only [List.length_cons, Nat.cast_add, Nat.cast_one]
      rcases he with rfl | he
      · omega
      · have := ih (k + 1) (by omega) e he
        omega

theorem NewIndexKeyCodec_ok {V M FC S : Type}
    (NewKeyCodec : List Byte → MessageDescriptor S → List Name → Except Error (KeyCodec V M FC))
    (pfx : List Byte) (md : MessageDescriptor S) (I P : List Name) (cdc : IndexKeyCodec V M FC)
    (hnew : NewIndexKeyCodec NewKeyCodec pfx md I P = .ok cdc) :
    NewKeyCodec pfx md (buildKeyFields I P).keyFields = .ok cdc.KeyCodec ∧
      cdc.pkFieldOrder = (buildKeyFields I P).pkFieldOrder ∧ cdc.tableName = md.FullName := by
  simp only [NewIndexKeyCodec] at hnew
  cases hk : NewKeyCodec pfx md (buildKeyFields I P).keyFields with
  | error e => simp [hk] at hnew
  | ok c =>
    simp only [hk, Except.ok.injEq] at hnew
    subst hnew
    exact ⟨rfl, rfl, rfl⟩

/-- Decoding a key whose merged values are those of the record `r`, with a codec
built from `I` and `P` that has one field codec per merged field. -/
theorem DecodeIndexKey_built_full {V M FC S : Type} [Inhabited V]
    (NewKeyCodec : List Byte → MessageDescriptor S → List Name → Except Error (KeyCodec V M FC))
    (pfx : List Byte) (md : MessageDescriptor S) (I P : List Name) (cdc : IndexKeyCodec V M FC)
    (hnew : NewIndexKeyCodec NewKeyCodec pfx md I P = .ok cdc)
    (hfc : cdc.KeyCodec.fieldCodecs.length = (buildKeyFields I P).keyFields.length)
    (r : Name → V) (k v : Slice Byte)
    (hdec : cdc.KeyCodec.Decode (bytesNewReader k) =
      (some (recordValues r (buildKeyFields I P).keyFields), none)) :
    DecodeIndexKey cdc k v =
      some { indexFields := some (recordValues r (buildKeyFields I P).keyFields),
             primaryKey := some (recordValues r P),
             err := none } := by
  obtain ⟨_, hord, _⟩ := NewIndexKeyCodec_ok NewKeyCodec pfx md I P cdc hnew
  have hlen : ¬ Slice.len (some (recordValues r (buildKeyFields I P).keyFields)) <
      (cdc.KeyCodec.fieldCodecs.length : Int) := by
    simp [Slice.len, recordValues, hfc]
  rw [DecodeIndexKey_full cdc k v _ hdec hlen, hord, buildKeyFields_eq]
  have h := lookupAll_orderList I P []
  simp only [List.append_nil, List.length_nil, Nat.cast_zero] at h
  rw [recordValues, lookupAll_map r _ _ _ h]
  rfl

/-! ## Construction and decoding: the claims -/

/-- C1. Primary-key recovery: for a codec built by `NewIndexKeyCodec` from index
fields `I` and primary-key fields `P` (any overlap), with one field codec per
merged field, and a record `r`: if the key codec decodes the key without error
to exactly the values of `r` for the merged fields, then `DecodeIndexKey`
returns those values, no error, and as primary key the values of `r` for the
fields of `P`, in the order of `P`. -/
theorem primary_key_recovery {V M FC S : Type} [Inhabited V]
    (NewKeyCodec : List Byte → MessageDescriptor S → List Name → Except Error (KeyCodec V M FC))
    (pfx : List Byte) (md : MessageDescriptor S) (I P : List Name) (cdc : IndexKeyCodec V M FC)
    (hnew : NewIndexKeyCodec NewKeyCodec pfx md I P = .ok cdc)
    (hfc : cdc.KeyCodec.fieldCodecs.length = (buildKeyFields I P).keyFields.length)
    (r : Name → V) (k v : Slice Byte)
    (hdec : cdc.KeyCodec.Decode (bytesNewReader k) =
      (some (recordValues r (buildKeyFields I P).keyFields), none)) :
    ∃ res : IndexKeyResult V, DecodeIndexKey cdc k v = some res ∧
      res.primaryKey = some (recordValues r P) ∧ res.err = none :=
  ⟨_, DecodeIndexKey_built_full NewKeyCodec pfx md I P cdc hnew hfc r k v hdec, rfl, rfl⟩

/-- Witness of C1: index fields `[id, age]`, primary key `[id]` (total overlap),
record `{id: 7, age: 30}`, key values `[7, 30]`: the primary key is `[7]`. -/
theorem primary_key_recovery_witness :
    ∃ res : IndexKeyResult Int,
      DecodeIndexKey (idAgeIndexCodec (some Error.EOF)) (some [1, 7, 30]) none = some res ∧
        res.primaryKey = some [7] ∧ res.err = none :=
  primary_key_recovery (exampleNewKeyCodec (some Error.EOF)) [1] exampleDescriptor
    ["id", "age"] ["id"] (idAgeIndexCodec (some Error.EOF)) rfl (by decide) exampleRecord
    (some [1, 7, 30]) none (by decide)

/-- C2. No recovery on a prefix key: when the key codec returns `io.EOF`, or
returns without error fewer values than the codec has field codecs (one per
merged field), `DecodeIndexKey` returns exactly the decoded values, a nil
primary key and no error, whatever the decoded values contain. -/
theorem no_recovery_on_prefix_key {V M FC : Type} [Inhabited V] (cdc : IndexKeyCodec V M FC)
    (k v : Slice Byte) (values : Slice V) (err : Option Error)
    (hdec : cdc.KeyCodec.Decode (bytesNewReader k) = (values, err))
    (h : err = some Error.EOF ∨
      (err = none ∧ values.len < (cdc.KeyCodec.fieldCodecs.length : Int))) :
    DecodeIndexKey cdc k v = some { indexFields := values, primaryKey := none, err := none } := by
  rcases h with rfl | ⟨rfl, hlt⟩
  · simp [DecodeIndexKey, hdec]
  · simp [DecodeIndexKey, hdec, hlt]

/-- Witness of C2: index fields `[id, age]`, primary key `[id]`, only `id`
decoded; both when the key codec reports `io.EOF` and when it reports no
error, the decoded `[7]` comes back with no primary key. -/
theorem no_recovery_on_prefix_key_witness :
    NewIndexKeyCodec (exampleNewKeyCodec (some Error.EOF)) [1] exampleDescriptor
        ["id", "age"] ["id"] = .ok (idAgeIndexCodec (some Error.EOF)) ∧
      DecodeIndexKey (idAgeIndexCodec (some Error.EOF)) (some [1, 7]) (some [0]) =
        some { indexFields := some [7], primaryKey := none, err := none } ∧
      DecodeIndexKey (idAgeIndexCodec none) (some [1, 7]) (some [0]) =
        some { indexFields := some [7], primaryKey := none, err := none } :=
  ⟨rfl,
   no_recovery_on_prefix_key (idAgeIndexCodec (some Error.EOF)) (some [1, 7]) (some [0])
     (some [7]) (some Error.EOF) (by decide) (Or.inl rfl),
   no_recovery_on_prefix_key (idAgeIndexCodec none) (some [1, 7]) (some [0])
     (some [7]) none (by decide) (Or.inr ⟨rfl, by decide⟩)⟩

/-- C3. Merged field sequence: the field sequence `NewIndexKeyCodec` hands to
`NewKeyCodec` is `I` followed by exactly the elements of `P` that do not occur in
`I`, in the order of `P`; its length is `len(I)` plus the number of positions of
`P` whose field is not in `I`. -/
theorem merged_field_sequence {V M FC S : Type}
    (NewKeyCodec : List Byte → MessageDescriptor S → List Name → Except Error (KeyCodec V M FC))
    (pfx : List Byte) (md : MessageDescriptor S) (I P : List Name) :
    NewIndexKeyCodec NewKeyCodec pfx md I P =
        (match NewKeyCodec pfx md (I ++ P.filter (fun f => decide (f ∉ I))) with
         | .error err => .error err
         | .ok cdc =>
           .ok { KeyCodec := cdc,
                 pkFieldOrder := (buildKeyFields I P).pkFieldOrder,
                 tableName := md.FullName }) ∧
      (buildKeyFields I P).keyFields = I ++ P.filter (fun f => decide (f ∉ I)) ∧
      (buildKeyFields I P).keyFields.length =
        I.length + P.countP (fun f => decide (f ∉ I)) := by
  have hk : (buildKeyFields I P).keyFields = I ++ P.filter (fun f => decide (f ∉ I)) := by
    rw [buildKeyFields_eq, tailFields_indexFieldMapOf]
  refine ⟨?_, hk, ?_⟩
  · simp only [NewIndexKeyCodec, hk]
  · rw [hk, List.length_append, List.countP_eq_length_filter]

/-- C4. Primary-key field map invariant: the `pkFieldOrder` of a codec built by
`NewIndexKeyCodec` has length exactly `len(P)`, and every entry of it is a
non-negative index strictly smaller than the length of the merged field
sequence. -/
theorem pk_field_map_invariant {V M FC S : Type}
    (NewKeyCodec : List Byte → MessageDescriptor S → List Name → Except Error (KeyCodec V M FC))
    (pfx : List Byte) (md : MessageDescriptor S) (I P : List Name) (cdc : IndexKeyCodec V M FC)
    (hnew : NewIndexKeyCodec NewKeyCodec pfx md I P = .ok cdc) :
    cdc.pkFieldOrder.length = P.length ∧
      ∀ e ∈ cdc.pkFieldOrder,
        0 ≤ e ∧ e < ((buildKeyFields I P).keyFields.length : Int) := by
  obtain ⟨_, hord, _⟩ := NewIndexKeyCodec_ok NewKeyCodec pfx md I P cdc hnew
  rw [hord, buildKeyFields_eq]
  refine ⟨orderList_length _ _ _ _, ?_⟩
  intro e he
  have h := orderList_bounds I P 0 (le_refl 0) e he
  simp only [List.length_append, Nat.cast_add]
  omega

/-- Witness of C4: index fields `[age]`, primary key `[id]`: the map `[1]` has one
entry, a valid position among the two merged fields. -/
theorem pk_field_map_invariant_witness :
    (ageIndexCodec none).pkFieldOrder.length = ["id"].length ∧
      ∀ e ∈ (ageIndexCodec none).pkFieldOrder,
        0 ≤ e ∧ e < ((buildKeyFields ["age"] ["id"]).keyFields.length : Int) :=
  pk_field_map_invariant (exampleNewKeyCodec none) [1] exampleDescriptor ["age"] ["id"]
    (ageIndexCodec none) rfl

/-- C5, as stated, fails: for index fields `[age]`, primary key `[id]` and the
record `{id: 7, age: 30}`, the key with merged values `[30, 7]` does not decode
to the index values `[30]` as first result. -/
theorem index_values_of_full_key_counterexample :
    NewIndexKeyCodec (exampleNewKeyCodec none) [1] exampleDescriptor ["age"] ["id"] =
        .ok (ageIndexCodec none) ∧
      (ageIndexCodec none).KeyCodec.Decode (bytesNewReader (some [1, 30, 7])) =
        (some [30, 7], none) ∧
      ¬ ∃ res : IndexKeyResult Int,
          DecodeIndexKey (ageIndexCodec none) (some [1, 30, 7]) none = some res ∧
            res.indexFields = some (recordValues exampleRecord ["age"]) := by
  refine ⟨rfl, by decide, ?_⟩
  rintro ⟨res, hres, hidx⟩
  have h : DecodeIndexKey (ageIndexCodec none) (some [1, 30, 7]) none =
      some { indexFields := some [30, 7], primaryKey := some [7], err := none } := by decide
  rw [h] at hres
  cases hres
  revert hidx
  decide

/-- C5, amended: decoding a full merged key returns as first result the values
of all merged fields (the index fields followed by the primary-key fields not
among them, `len(I)` plus the number of such fields in all), and as second
result the primary-key values. -/
theorem full_key_returns_merged_values {V M FC S : Type} [Inhabited V]
    (NewKeyCodec : List Byte → MessageDescriptor S → List Name → Except Error (KeyCodec V M FC))
    (pfx : List Byte) (md : MessageDescriptor S) (I P : List Name) (cdc : IndexKeyCodec V M FC)
    (hnew : NewIndexKeyCodec NewKeyCodec pfx md I P = .ok cdc)
    (hfc : cdc.KeyCodec.fieldCodecs.length = (buildKeyFields I P).keyFields.length)
    (r : Name → V) (k v : Slice Byte)
    (hdec : cdc.KeyCodec.Decode (bytesNewReader k) =
      (some (recordValues r (buildKeyFields I P).keyFields), none)) :
    ∃ res : IndexKeyResult V, DecodeIndexKey cdc k v = some res ∧
      res.indexFields = some (recordValues r (I ++ P.filter (fun f => decide (f ∉ I)))) ∧
      res.indexFields.len = (I.length : Int) + (P.countP (fun f => decide (f ∉ I)) : Int) ∧
      res.primaryKey = some (recordValues r P) ∧ res.err = none := by
  have hk : (buildKeyFields I P).keyFields = I ++ P.filter (fun f => decide (f ∉ I)) := by
    rw [buildKeyFields_eq, tailFields_indexFieldMapOf]
  refine ⟨_, DecodeIndexKey_built_full NewKeyCodec pfx md I P cdc hnew hfc r k v hdec,
    by rw [hk], ?_, rfl, rfl⟩
  simp only [Slice.len, recordValues, hk, List.length_map, List.length_append,
    List.countP_eq_length_filter, Nat.cast_add]

/-- Witness of the amended C5: index fields `[age]`, primary key `[id]`, record
`{id: 7, age: 30}`: the first result is `[30, 7]`, the primary key `[7]`. -/
theorem full_key_returns_merged_values_witness :
    ∃ res : IndexKeyResult Int,
      DecodeIndexKey (ageIndexCodec none) (some [1, 30, 7]) none = some res ∧
        res.indexFields = some [30, 7] ∧ res.indexFields.len = 1 + 1 ∧
        res.primaryKey = some [7] ∧ res.err = none :=
  full_key_returns_merged_values (exampleNewKeyCodec none) [1] exampleDescriptor
    ["age"] ["id"] (ageIndexCodec none) rfl (by decide) exampleRecord
    (some [1, 30, 7]) none (by decide)

/-! ## Entries and encoding: the claims -/

/-- The returns of `EncodeEntry`: the rejection with `BadDecodeEntry`, or, for a
non-nil index-key entry of the codec's table, the failure of `Encode` or the
encoded key with the sentinel. -/
theorem EncodeEntry_cases {V M FC : Type} (i : IndexKeyCodec V M FC) (entry : Entry V M)
    (res : KVResult) (h : EncodeEntry i entry = some res) :
    res = { k := none, v := none, err := some Error.BadDecodeEntry } ∨
      ∃ e : IndexKeyEntry V, entry = Entry.indexKeyEntry (some e) ∧
        e.TableName = i.tableName ∧
        ((∃ x : Error, (i.KeyCodec.Encode e.IndexValues).2 = some x ∧
            res = { k := none, v := none, err := some x }) ∨
          ((i.KeyCodec.Encode e.IndexValues).2 = none ∧
            res = { k := (i.KeyCodec.Encode e.IndexValues).1, v := sentinel, err := none })) := by
  cases entry with
  | nil =>
    simp only [EncodeEntry, Option.some.injEq] at h
    exact Or.inl h.symm
  | primaryKeyEntry e =>
    simp only [EncodeEntry, Option.some.injEq] at h
    exact Or.inl h.symm
  | indexKeyEntry e =>
    cases e with
    | none => simp [EncodeEntry] at h
    | some e =>
      simp only [EncodeEntry] at h
      by_cases ht : e.TableName = i.tableName
      · right
        refine ⟨e, rfl, ht, ?_⟩
        cases herr : (i.KeyCodec.Encode e.IndexValues).2 with
        | none =>
          right
          simp only [ht, herr, ne_eq, not_true_eq_false, if_false, Option.some.injEq] at h
          exact ⟨rfl, h.symm⟩
        | some x =>
          left
          simp only [ht, herr, ne_eq, not_true_eq_false, if_false, reduceCtorEq,
            not_false_eq_true, if_true, Option.some.injEq] at h
          exact ⟨x, rfl, h.symm⟩
      · left
        simp only [ne_eq, ht, not_false_eq_true, if_true, Option.some.injEq] at h
        exact h.symm

/-- C6, as stated, fails: an interface value holding the nil `*IndexKeyEntry`
pointer is not an index-key entry of any table, and `EncodeEntry` does not
fail with `BadDecodeEntry` on it: it panics. -/
theorem mismatched_entry_rejection_counterexample :
    EncodeEntry (ageIndexCodec none) (Entry.indexKeyEntry none) = none ∧
      ¬ ∀ entry : Entry Int (Name → Int),
          (∀ e : IndexKeyEntry Int, entry = Entry.indexKeyEntry (some e) →
            e.TableName ≠ (ageIndexCodec none).tableName) →
          EncodeEntry (ageIndexCodec none) entry =
            some { k := none, v := none, err := some Error.BadDecodeEntry } := by
  refine ⟨rfl, fun h => ?_⟩
  have h2 := h (Entry.indexKeyEntry none) (by intro e he; cases he)
  have h3 : EncodeEntry (ageIndexCodec none) (Entry.indexKeyEntry none) = none := rfl
  rw [h3] at h2
  cases h2

/-- C6, amended: `EncodeEntry` fails with `BadDecodeEntry` for every entry that
does not hold a `*IndexKeyEntry` (the nil interface, a primary-key entry
pointer) and for every non-nil index-key entry whose `TableName` differs from
the codec's, whatever its values are; for a non-nil index-key entry of the
codec's table `EncodeEntry` returns, and its error is the error of the key
codec's `Encode` (none when `Encode` succeeds). -/
theorem mismatched_entry_rejection {V M FC : Type} (i : IndexKeyCodec V M FC) :
    (∀ entry : Entry V M, entry ≠ Entry.indexKeyEntry none →
        (∀ e : IndexKeyEntry V, entry = Entry.indexKeyEntry (some e) →
          e.TableName ≠ i.tableName) →
        EncodeEntry i entry = some { k := none, v := none, err := some Error.BadDecodeEntry }) ∧
      (∀ e : IndexKeyEntry V, e.TableName = i.tableName →
        ∃ res : KVResult, EncodeEntry i (Entry.indexKeyEntry (some e)) = some res ∧
          res.err = (i.KeyCodec.Encode e.IndexValues).2) := by
  constructor
  · intro entry hnil h
    cases entry with
    | nil => rfl
    | primaryKeyEntry e => rfl
    | indexKeyEntry e =>
      cases e with
      | none => exact absurd rfl hnil
      | some e =>
        have hne := h e rfl
        simp [EncodeEntry, hne]
  · intro e he
    simp only [EncodeEntry, he, ne_eq, not_true_eq_false, if_false]
    cases herr : (i.KeyCodec.Encode e.IndexValues).2 <;> simp [herr]

/-- Example for the amended C6: an entry of another table, a primary-key entry, a
nil primary-key entry pointer and the nil entry are rejected with
`BadDecodeEntry`, although the values `[30, 7]` encode; an entry of the
codec's table with the wrong number of values fails with the error of
`Encode`. -/
theorem mismatched_entry_rejection_witness :
    EncodeEntry (ageIndexCodec none)
        (Entry.indexKeyEntry (some (exampleEntry "animal" ["age", "id"] (some [7])))) =
        some { k := none, v := none, err := some Error.BadDecodeEntry } ∧
      EncodeEntry (ageIndexCodec none)
        (Entry.primaryKeyEntry
          (some { TableName := "person", Key := some [7], Value := exampleRecord })) =
        some { k := none, v := none, err := some Error.BadDecodeEntry } ∧
      EncodeEntry (ageIndexCodec none) (Entry.primaryKeyEntry none) =
        some { k := none, v := none, err := some Error.BadDecodeEntry } ∧
      EncodeEntry (ageIndexCodec none) Entry.nil =
        some { k := none, v := none, err := some Error.BadDecodeEntry } ∧
      (∃ res : KVResult,
        EncodeEntry (ageIndexCodec none)
          (Entry.indexKeyEntry
            (some { TableName := "person", Fields := [], IndexValues := some [30],
                    PrimaryKey := none })) = some res ∧
        res.err = some (Error.other "field count")) :=
  ⟨(mismatched_entry_rejection (ageIndexCodec none)).1 _ (by intro h; cases h) (by
      intro e he; cases he; decide),
   (mismatched_entry_rejection (ageIndexCodec none)).1 _ (by intro h; cases h)
     (by intro e he; cases he),
   (mismatched_entry_rejection (ageIndexCodec none)).1 _ (by intro h; cases h)
     (by intro e he; cases he),
   (mismatched_entry_rejection (ageIndexCodec none)).1 _ (by intro h; cases h)
     (by intro e he; cases he),
   (mismatched_entry_rejection (ageIndexCodec none)).2 _ rfl⟩

/-- C7. Sentinel invariance: `EncodeKVFromMessage` (successful or not) and a
successful `EncodeEntry` return as value the same byte string, the single byte
0, of length exactly 1, whatever the record, the entry and the key are. -/
theorem sentinel_invariance {V M FC : Type} (cdc : IndexKeyCodec V M FC) (message : M)
    (entry : Entry V M) (res : KVResult)
    (hres : EncodeEntry cdc entry = some res)
    (hentry : res.err = none) :
    (EncodeKVFromMessage cdc message).v = res.v ∧
      (EncodeKVFromMessage cdc message).v = some [0] ∧
      res.v = some [0] ∧
      res.v.len = 1 := by
  have hm : (EncodeKVFromMessage cdc message).v = some [0] := rfl
  have he : res.v = some [0] := by
    rcases EncodeEntry_cases cdc entry res hres with h | ⟨e, _, _, ⟨x, _, h⟩ | ⟨_, h⟩⟩
    · rw [h] at hentry; simp at hentry
    · rw [h] at hentry; simp at hentry
    · rw [h]; rfl
  refine ⟨by rw [hm, he], hm, he, ?_⟩
  rw [he]
  rfl

/-- Witness of C7: the record `{id: 7, age: 30}` and an entry of the same table
both encode, each with the value `[0]`. -/
theorem sentinel_invariance_witness :
    EncodeEntry (ageIndexCodec none)
        (Entry.indexKeyEntry (some (exampleEntry "person" ["age", "id"] (some [7])))) =
        some { k := some [1, 30, 7], v := some [0], err := none } ∧
      (EncodeKVFromMessage (ageIndexCodec none) exampleRecord).v = some [0] ∧
      (EncodeKVFromMessage (ageIndexCodec none) exampleRecord).v =
        (({ k := some [1, 30, 7], v := some [0], err := none } : KVResult)).v ∧
      (({ k := some [1, 30, 7], v := some [0], err := none } : KVResult)).v.len = 1 :=
  have h := sentinel_invariance (ageIndexCodec none) exampleRecord
    (Entry.indexKeyEntry (some (exampleEntry "person" ["age", "id"] (some [7]))))
    { k := some [1, 30, 7], v := some [0], err := none } (by decide) rfl
  ⟨by decide, h.2.1, h.1, h.2.2.2⟩

/-- C8. `EncodeEntry` encodes only the index values: two index-key entries of the
codec's table with the same `IndexValues` get the same result (key, value,
error), whatever their `Fields` and `PrimaryKey` are; when `Encode` succeeds
the key is exactly what the key codec's `Encode` returns for `IndexValues`. -/
theorem encode_entry_only_index_values {V M FC : Type} (i : IndexKeyCodec V M FC)
    (e1 e2 : IndexKeyEntry V)
    (h1 : e1.TableName = i.tableName) (h2 : e2.TableName = i.tableName)
    (hv : e1.IndexValues = e2.IndexValues) :
    EncodeEntry i (Entry.indexKeyEntry (some e1)) =
        EncodeEntry i (Entry.indexKeyEntry (some e2)) ∧
      (∃ res : KVResult, EncodeEntry i (Entry.indexKeyEntry (some e1)) = some res) ∧
      ((i.KeyCodec.Encode e1.IndexValues).2 = none →
        ∃ res : KVResult, EncodeEntry i (Entry.indexKeyEntry (some e1)) = some res ∧
          res.k = (i.KeyCodec.Encode e1.IndexValues).1) := by
  refine ⟨?_, ?_, ?_⟩
  · simp only [EncodeEntry, h1, h2, hv]
  · simp only [EncodeEntry, h1, ne_eq, not_true_eq_false, if_false]
    cases herr : (i.KeyCodec.Encode e1.IndexValues).2 <;> simp [herr]
  · intro herr
    simp [EncodeEntry, h1, herr]

/-- Witness of C8: two entries of the table `person` with values `[30, 7]`, one
with field names and primary key `[7]`, one with neither: the same key
`[1, 30, 7]` and the same value. -/
theorem encode_entry_only_index_values_witness :
    EncodeEntry (ageIndexCodec none)
        (Entry.indexKeyEntry (some (exampleEntry "person" ["age", "id"] (some [7])))) =
      EncodeEntry (ageIndexCodec none)
        (Entry.indexKeyEntry (some (exampleEntry "person" [] none))) ∧
      (∃ res : KVResult,
        EncodeEntry (ageIndexCodec none)
          (Entry.indexKeyEntry (some (exampleEntry "person" ["age", "id"] (some [7])))) =
          some res) ∧
      (((ageIndexCodec none).KeyCodec.Encode
          (exampleEntry "person" ["age", "id"] (some [7])).IndexValues).2 = none →
        ∃ res : KVResult,
          EncodeEntry (ageIndexCodec none)
            (Entry.indexKeyEntry (some (exampleEntry "person" ["age", "id"] (some [7])))) =
            some res ∧
          res.k = ((ageIndexCodec none).KeyCodec.Encode
            (exampleEntry "person" ["age", "id"] (some [7])).IndexValues).1) :=
  encode_entry_only_index_values (ageIndexCodec none)
    (exampleEntry "person" ["age", "id"] (some [7])) (exampleEntry "person" [] none) rfl rfl rfl

/-- C9. Fatal decode errors propagate unchanged: when the key codec's `Decode`
returns an error other than `io.EOF`, `DecodeIndexKey` returns that error with
nil values and a nil primary key, whatever values `Decode` returned, and
`DecodeEntry` returns that error with a nil entry. -/
theorem fatal_decode_errors_propagate {V M FC : Type} [Inhabited V] (cdc : IndexKeyCodec V M FC)
    (k v : Slice Byte) (values : Slice V) (e : Error)
    (hdec : cdc.KeyCodec.Decode (bytesNewReader k) = (values, some e))
    (hne : e ≠ Error.EOF) :
    DecodeIndexKey cdc k v = some { indexFields := none, primaryKey := none, err := some e } ∧
      DecodeEntry cdc k v = some { entry := Entry.nil, err := some e } := by
  have h : DecodeIndexKey cdc k v =
      some { indexFields := none, primaryKey := none, err := some e } := by
    simp [DecodeIndexKey, hdec, hne]
  exact ⟨h, by simp [DecodeEntry, h]⟩

/-- Witness of C9: a key codec that reports a short key with an error other than
`io.EOF`, next to the value `[30]` it decoded: the error comes back alone. -/
theorem fatal_decode_errors_propagate_witness :
    DecodeIndexKey (ageIndexCodec (some (Error.other "short key"))) (some [1, 30]) none =
        some { indexFields := none, primaryKey := none,
               err := some (Error.other "short key") } ∧
      DecodeEntry (ageIndexCodec (some (Error.other "short key"))) (some [1, 30]) none =
        some { entry := Entry.nil, err := some (Error.other "short key") } :=
  fatal_decode_errors_propagate (ageIndexCodec (some (Error.other "short key")))
    (some [1, 30]) none (some [30]) (Error.other "short key") (by decide) (by decide)

/-- C10. The value bytes are never interpreted: for every key and every two
value byte strings, `DecodeIndexKey` and `DecodeEntry` return the same result. -/
theorem value_bytes_never_interpreted {V M FC : Type} [Inhabited V] (cdc : IndexKeyCodec V M FC)
    (k v1 v2 : Slice Byte) :
    DecodeIndexKey cdc k v1 = DecodeIndexKey cdc k v2 ∧
      DecodeEntry cdc k v1 = DecodeEntry cdc k v2 :=
  ⟨rfl, rfl⟩

/-! ## Positions of the primary-key field map -/

theorem orderList_getElem_some (m : GoMap Name Int) (nI : Int) (P : List Name) :
    ∀ (k : Int) (j : Nat) (f : Name) (i : Int), P[j]? = some f → m f = some i →
      (orderList m nI k P)[j]? = some i := by
  induction P with
  | nil => intro k j f i h; simp at h
  | cons g gs ih =>
    intro k j f i h hm
    cases j with
    | zero =>
      simp only [List.getElem?_cons_zero, Option.some.injEq] at h
      subst h
      simp [orderList, hm]
    | succ j =>
      simp only [List.getElem?_cons_succ] at h
      cases hg : m g with
      | some i2 => simpa [orderList, hg] using ih k j f i h hm
      | none => simpa [orderList, hg] using ih (k + 1) j f i h hm

theorem orderList_getElem_none (m : GoMap Name Int) (nI : Int) (P : List Name) :
    ∀ (k : Int) (j : Nat) (f : Name), P[j]? = some f → m f = none →
      (orderList m nI k P)[j]? = some (nI + k + ((tailFields m (P.take j)).length : Int)) := by
  induction P with
  | nil => intro k j f h; simp at h
  | cons g gs ih =>
    intro k j f h hm
    cases j with
    | zero =>
      simp only [List.getElem?_cons_zero, Option.some.injEq] at h
      subst h
      simp [orderList, hm, tailFields]
    | succ j =>
      simp only [List.getElem?_cons_succ] at h
      cases hg : m g with
      | some i2 =>
        have := ih k j f h hm
        simpa [orderList, hg, tailFields] using this
      | none =>
        have := ih (k + 1) j f h hm
        simp only [orderList, hg, List.getElem?_cons_succ, this, List.take_succ_cons, tailFields,
          List.filter_cons, Option.isNone_none, if_true, List.length_cons, Nat.cast_add,
          Nat.cast_one, Option.some.injEq]
        omega

theorem lookupAll_getElem {V : Type} (values : Slice V) (ps : List Int) :
    ∀ (xs : List V), lookupAll values ps = some xs →
      ∀ (j : Nat) (e : Int), ps[j]? = some e →
        ∃ x, values.index e = some x ∧ xs[j]? = some x := by
  induction ps with
  | nil => intro xs _ j e h; simp at h
  | cons p ps ih =>
    intro xs hx j e he
    simp only [lookupAll] at hx
    cases hv : values.index p with
    | none => simp [hv] at hx
    | some x =>
      simp only [hv] at hx
      cases hr : lookupAll values ps with
      | none => simp [hr] at hx
      | some ys =>
        simp only [hr, Option.map_some', Option.some.injEq] at hx
        subst hx
        cases j with
        | zero =>
          simp only [List.getElem?_cons_zero, Option.some.injEq] at he
          subst he
          exact ⟨x, hv, by simp⟩
        | succ j =>
          simp only [List.getElem?_cons_succ] at he
          obtain ⟨y, hy1, hy2⟩ := ih ys hr j e he
          exact ⟨y, hy1, by simpa using hy2⟩

theorem lookupAll_of_bounds {V : Type} (values : Slice V) (ps : List Int)
    (h : ∀ e ∈ ps, 0 ≤ e ∧ e < values.len) :
    ∃ xs, lookupAll values ps = some xs ∧ xs.length = ps.length := by
  induction ps with
  | nil => exact ⟨[], rfl, rfl⟩
  | cons p ps ih =>
    obtain ⟨ys, hys, hlen⟩ := ih (fun e he => h e (List.mem_cons_of_mem _ he))
    obtain ⟨hp0, hp1⟩ := h p (List.mem_cons_self _ _)
    cases values with
    | none => simp [Slice.len] at hp1; omega
    | some l =>
      simp only [Slice.len] at hp1
      have hlt : p.toNat < l.length := by omega
      have hnn : ¬ p < 0 := by omega
      refine ⟨l[p.toNat] :: ys, ?_, by simp [hlen]⟩
      simp [lookupAll, Slice.index, listIndex, hnn, List.getElem?_eq_getElem hlt, hys]

/-! ## Entries, uniqueness and positions: the claims -/

/-- C11. `DecodeEntry` wraps `DecodeIndexKey`: whenever `DecodeIndexKey` returns
values and a primary key without error, `DecodeEntry` returns without error an
index-key entry with the codec's table name, the codec's field names, those
values as `IndexValues` and that primary key (nil exactly when
`DecodeIndexKey` returned none). -/
theorem decode_entry_wraps_decode_index_key {V M FC : Type} [Inhabited V]
    (cdc : IndexKeyCodec V M FC) (k v : Slice Byte) (res : IndexKeyResult V)
    (hres : DecodeIndexKey cdc k v = some res) (herr : res.err = none) :
    DecodeEntry cdc k v =
      some { entry := Entry.indexKeyEntry
               (some { TableName := cdc.tableName,
                       Fields := cdc.KeyCodec.fieldNames,
                       IndexValues := res.indexFields,
                       PrimaryKey := res.primaryKey }),
             err := none } := by
  simp [DecodeEntry, hres, herr]

/-- Witness of C11: the full key `[1, 30, 7]` gives an entry with primary key
`[7]`. -/
theorem decode_entry_wraps_decode_index_key_witness :
    DecodeEntry (ageIndexCodec none) (some [1, 30, 7]) (some [0]) =
      some { entry := Entry.indexKeyEntry
               (some { TableName := "person",
                       Fields := ["age", "id"],
                       IndexValues := some [30, 7],
                       PrimaryKey := some [7] }),
             err := none } :=
  decode_entry_wraps_decode_index_key (ageIndexCodec none) (some [1, 30, 7]) (some [0])
    { indexFields := some [30, 7], primaryKey := some [7], err := none } (by decide) rfl

/-- C12. Key uniqueness: two records that differ in the value of a field of `P`
have different merged value sequences, whatever their values for the fields
of `I`; hence every injective encoding of the value sequences gives them
different keys. -/
theorem key_uniqueness {V : Type} (I P : List Name) (r1 r2 : Name → V) (f : Name)
    (hf : f ∈ P) (hne : r1 f ≠ r2 f) :
    recordValues r1 (buildKeyFields I P).keyFields ≠
        recordValues r2 (buildKeyFields I P).keyFields ∧
      ∀ (B : Type) (enc : List V → B), Function.Injective enc →
        enc (recordValues r1 (buildKeyFields I P).keyFields) ≠
          enc (recordValues r2 (buildKeyFields I P).keyFields) := by
  have hmem : f ∈ (buildKeyFields I P).keyFields := by
    rw [buildKeyFields_eq, tailFields_indexFieldMapOf]
    by_cases hI : f ∈ I
    · exact List.mem_append_left _ hI
    · exact List.mem_append_right _ (List.mem_filter.mpr ⟨hf, by simpa using hI⟩)
  have hdiff : recordValues r1 (buildKeyFields I P).keyFields ≠
      recordValues r2 (buildKeyFields I P).keyFields := by
    intro heq
    exact hne (List.map_inj_left.mp heq f hmem)
  exact ⟨hdiff, fun B enc henc h => hdiff (henc h)⟩

/-- Witness of C12: index fields `[age]`, primary key `[id]`; the records
`{id: 7, age: 30}` and `{id: 0, age: 30}` agree on `age` and differ on `id`. -/
theorem key_uniqueness_witness :
    recordValues exampleRecord (buildKeyFields ["age"] ["id"]).keyFields ≠
        recordValues (fun f => if f = "age" then 30 else 0)
          (buildKeyFields ["age"] ["id"]).keyFields ∧
      ∀ (B : Type) (enc : List Int → B), Function.Injective enc →
        enc (recordValues exampleRecord (buildKeyFields ["age"] ["id"]).keyFields) ≠
          enc (recordValues (fun f => if f = "age" then 30 else 0)
            (buildKeyFields ["age"] ["id"]).keyFields) :=
  key_uniqueness ["age"] ["id"] exampleRecord (fun f => if f = "age" then 30 else 0) "id"
    (by decide) (by decide)

/-- C13. Back-reference or tail position: for a codec built by `NewIndexKeyCodec`
and every position `j` of `P`, with field `f`, the entry `pkFieldOrder[j]` is
smaller than `len(I)` if and only if `f` occurs in `I`, and when `f` does not
occur in `I` it equals `len(I)` plus the number of earlier positions of `P`
whose field does not occur in `I`. -/
theorem back_reference_or_tail_position {V M FC S : Type}
    (NewKeyCodec : List Byte → MessageDescriptor S → List Name → Except Error (KeyCodec V M FC))
    (pfx : List Byte) (md : MessageDescriptor S) (I P : List Name) (cdc : IndexKeyCodec V M FC)
    (hnew : NewIndexKeyCodec NewKeyCodec pfx md I P = .ok cdc)
    (j : Nat) (f : Name) (hj : P[j]? = some f) :
    ∃ e : Int, cdc.pkFieldOrder[j]? = some e ∧
      (e < (I.length : Int) ↔ f ∈ I) ∧
      (f ∉ I →
        e = (I.length : Int) + ((P.take j).countP (fun g => decide (g ∉ I)) : Int)) := by
  obtain ⟨_, hord, _⟩ := NewIndexKeyCodec_ok NewKeyCodec pfx md I P cdc hnew
  rw [hord, buildKeyFields_eq]
  cases hm : indexFieldMapOf I f with
  | some i =>
    have hfI : f ∈ I := by
      by_contra hc
      rw [(indexFieldMapOf_none I f).mpr hc] at hm
      exact absurd hm (by simp)
    obtain ⟨n, hi, hn, _⟩ := indexFieldMapOf_some I f i hm
    have hlt : n < I.length := by
      rcases Nat.lt_or_ge n I.length with h | h
      · exact h
      · rw [List.getElem?_eq_none h] at hn; exact absurd hn (by simp)
    refine ⟨i, orderList_getElem_some _ _ P 0 j f i hj hm, ?_, fun h => absurd hfI h⟩
    constructor
    · intro _; exact hfI
    · intro _; omega
  | none =>
    have hfI : f ∉ I := (indexFieldMapOf_none I f).mp hm
    have hcount : (tailFields (indexFieldMapOf I) (P.take j)).length =
        (P.take j).countP (fun g => decide (g ∉ I)) := by
      rw [tailFields_indexFieldMapOf, List.countP_eq_length_filter]
    refine ⟨_, orderList_getElem_none _ _ P 0 j f hj hm, ?_, fun _ => ?_⟩
    · constructor
      · intro h; omega
      · intro h; exact absurd h hfI
    · rw [hcount]; omega

/-- Witness of C13: index fields `[a, b]`, primary key `[x, a, y]`: position 2
(field `y`, with the one earlier field `x` outside the index fields) gets the
tail position 3. -/
theorem back_reference_or_tail_position_witness :
    (buildKeyFields ["a", "b"] ["x", "a", "y"]).pkFieldOrder = [2, 0, 3] ∧
    ∃ e : Int, (buildKeyFields ["a", "b"] ["x", "a", "y"]).pkFieldOrder[2]? = some e ∧
      (e < ((["a", "b"] : List Name).length : Int) ↔ "y" ∈ (["a", "b"] : List Name)) ∧
      ("y" ∉ (["a", "b"] : List Name) →
        e = ((["a", "b"] : List Name).length : Int) +
          (((["x", "a", "y"] : List Name).take 2).countP
            (fun g => decide (g ∉ (["a", "b"] : List Name))) : Int)) :=
  ⟨by decide, back_reference_or_tail_position (exampleNewKeyCodec none) [1] exampleDescriptor
    ["a", "b"] ["x", "a", "y"]
    { KeyCodec := exampleKeyCodec none [1] (buildKeyFields ["a", "b"] ["x", "a", "y"]).keyFields,
      tableName := "person",
      pkFieldOrder := (buildKeyFields ["a", "b"] ["x", "a", "y"]).pkFieldOrder }
    rfl 2 "y" (by decide)⟩

/-- C14. The position map points at the right fields: for a codec built by
`NewIndexKeyCodec` (names may repeat inside `I` or inside `P`) and every
position `j` of `P`, with field `f`, the merged field sequence holds `f` at
index `pkFieldOrder[j]`; when `f` occurs in `I` that index is the last
occurrence of `f` in `I`. -/
theorem position_map_points_at_fields {V M FC S : Type}
    (NewKeyCodec : List Byte → MessageDescriptor S → List Name → Except Error (KeyCodec V M FC))
    (pfx : List Byte) (md : MessageDescriptor S) (I P : List Name) (cdc : IndexKeyCodec V M FC)
    (hnew : NewIndexKeyCodec NewKeyCodec pfx md I P = .ok cdc)
    (j : Nat) (f : Name) (hj : P[j]? = some f) :
    ∃ e : Int, cdc.pkFieldOrder[j]? = some e ∧
      listIndex (buildKeyFields I P).keyFields e = some f ∧
      (f ∈ I → ∃ n : Nat, e = (n : Int) ∧ I[n]? = some f ∧
        ∀ n2 : Nat, n < n2 → I[n2]? ≠ some f) := by
  obtain ⟨_, hord, _⟩ := NewIndexKeyCodec_ok NewKeyCodec pfx md I P cdc hnew
  rw [hord, buildKeyFields_eq]
  have hall := lookupAll_orderList I P []
  simp only [List.append_nil, List.length_nil, Nat.cast_zero] at hall
  have hpoint : ∀ e : Int,
      (orderList (indexFieldMapOf I) (I.length : Int) 0 P)[j]? = some e →
        listIndex (I ++ tailFields (indexFieldMapOf I) P) e = some f := by
    intro e he
    obtain ⟨x, hx1, hx2⟩ := lookupAll_getElem _ _ P hall j e he
    rw [hj] at hx2
    cases hx2
    exact hx1
  cases hm : indexFieldMapOf I f with
  | some i =>
    have he := orderList_getElem_some (indexFieldMapOf I) (I.length : Int) P 0 j f i hj hm
    exact ⟨i, he, hpoint i he, fun _ => indexFieldMapOf_some I f i hm⟩
  | none =>
    have hfI : f ∉ I := (indexFieldMapOf_none I f).mp hm
    have he := orderList_getElem_none (indexFieldMapOf I) (I.length : Int) P 0 j f hj hm
    exact ⟨_, he, hpoint _ he, fun h => absurd h hfI⟩

/-- Witness of C14: index fields `[a, b, a]`, primary key `[id, a]`: position 1
(field `a`) refers to index 2, the last `a` of the index fields. -/
theorem position_map_points_at_fields_witness :
    (buildKeyFields ["a", "b", "a"] ["id", "a"]).pkFieldOrder = [3, 2] ∧
    ∃ e : Int, (buildKeyFields ["a", "b", "a"] ["id", "a"]).pkFieldOrder[1]? = some e ∧
      listIndex (buildKeyFields ["a", "b", "a"] ["id", "a"]).keyFields e = some "a" ∧
      ("a" ∈ (["a", "b", "a"] : List Name) →
        ∃ n : Nat, e = (n : Int) ∧ (["a", "b", "a"] : List Name)[n]? = some "a" ∧
          ∀ n2 : Nat, n < n2 → (["a", "b", "a"] : List Name)[n2]? ≠ some "a") :=
  ⟨by decide, position_map_points_at_fields (exampleNewKeyCodec none) [1] exampleDescriptor
    ["a", "b", "a"] ["id", "a"]
    { KeyCodec := exampleKeyCodec none [1] (buildKeyFields ["a", "b", "a"] ["id", "a"]).keyFields,
      tableName := "person",
      pkFieldOrder := (buildKeyFields ["a", "b", "a"] ["id", "a"]).pkFieldOrder }
    rfl 1 "a" (by decide)⟩

/-! ## Round trip, totality, duplicates and failure outputs: the claims -/

theorem built_pkFieldOrder_bounds {V M FC S : Type}
    (NewKeyCodec : List Byte → MessageDescriptor S → List Name → Except Error (KeyCodec V M FC))
    (pfx : List Byte) (md : MessageDescriptor S) (I P : List Name) (cdc : IndexKeyCodec V M FC)
    (hnew : NewIndexKeyCodec NewKeyCodec pfx md I P = .ok cdc) :
    cdc.pkFieldOrder.length = P.length ∧
      ∀ e ∈ cdc.pkFieldOrder, 0 ≤ e ∧ e < ((buildKeyFields I P).keyFields.length : Int) := by
  obtain ⟨_, hord, _⟩ := NewIndexKeyCodec_ok NewKeyCodec pfx md I P cdc hnew
  rw [hord, buildKeyFields_eq]
  refine ⟨orderList_length _ _ _ _, ?_⟩
  intro e he
  have h := orderList_bounds I P 0 (le_refl 0) e he
  simp only [List.length_append, Nat.cast_add]
  omega

theorem EncodeEntry_ok {V M FC : Type} (i : IndexKeyCodec V M FC) (e : IndexKeyEntry V)
    (key : Slice Byte) (ht : e.TableName = i.tableName)
    (henc : i.KeyCodec.Encode e.IndexValues = (key, none)) :
    EncodeEntry i (Entry.indexKeyEntry (some e)) =
      some { k := key, v := sentinel, err := none } := by
  simp [EncodeEntry, ht, henc]

/-- C15. Entry round trip on full keys: for a codec built by `NewIndexKeyCodec`
and a full-length merged value sequence `vs` that the key codec encodes to
`key` and decodes back from `key` without error, `DecodeEntry` of `key` (with
any value) yields an index-key entry with `IndexValues = vs`, and `EncodeEntry`
of that entry returns exactly `key`, the sentinel value and no error. -/
theorem entry_round_trip_on_full_keys {V M FC S : Type} [Inhabited V]
    (NewKeyCodec : List Byte → MessageDescriptor S → List Name → Except Error (KeyCodec V M FC))
    (pfx : List Byte) (md : MessageDescriptor S) (I P : List Name) (cdc : IndexKeyCodec V M FC)
    (hnew : NewIndexKeyCodec NewKeyCodec pfx md I P = .ok cdc)
    (vs : List V) (key v : Slice Byte)
    (hlen : vs.length = (buildKeyFields I P).keyFields.length)
    (henc : cdc.KeyCodec.Encode (some vs) = (key, none))
    (hdec : cdc.KeyCodec.Decode (bytesNewReader key) = (some vs, none)) :
    ∃ e : IndexKeyEntry V,
      DecodeEntry cdc key v = some { entry := Entry.indexKeyEntry (some e), err := none } ∧
        e.IndexValues = some vs ∧
        EncodeEntry cdc (Entry.indexKeyEntry (some e)) =
          some { k := key, v := sentinel, err := none } := by
  obtain ⟨_, hb⟩ := built_pkFieldOrder_bounds NewKeyCodec pfx md I P cdc hnew
  by_cases hlt : Slice.len (some vs) < (cdc.KeyCodec.fieldCodecs.length : Int)
  · have hres : DecodeIndexKey cdc key v =
        some { indexFields := some vs, primaryKey := none, err := none } := by
      simp [DecodeIndexKey, hdec, hlt]
    refine ⟨{ TableName := cdc.tableName, Fields := cdc.KeyCodec.fieldNames,
              IndexValues := some vs, PrimaryKey := none }, ?_, rfl, ?_⟩
    · simp [DecodeEntry, hres]
    · exact EncodeEntry_ok cdc _ key rfl henc
  · have hb2 : ∀ e ∈ cdc.pkFieldOrder, 0 ≤ e ∧ e < Slice.len (some vs) := by
      intro e he
      have := hb e he
      simp only [Slice.len, hlen]
      exact this
    obtain ⟨pk, hpk, _⟩ := lookupAll_of_bounds (some vs) cdc.pkFieldOrder hb2
    have hres : DecodeIndexKey cdc key v =
        some { indexFields := some vs, primaryKey := some pk, err := none } := by
      rw [DecodeIndexKey_full cdc key v _ hdec hlt, hpk]
      rfl
    refine ⟨{ TableName := cdc.tableName, Fields := cdc.KeyCodec.fieldNames,
              IndexValues := some vs, PrimaryKey := some pk }, ?_, rfl, ?_⟩
    · simp [DecodeEntry, hres]
    · exact EncodeEntry_ok cdc _ key rfl henc

/-- Witness of C15: index fields `[age]`, primary key `[id]`, values `[30, 7]`
with key `[1, 30, 7]`; the stored value `[9]` is replaced by the sentinel. -/
theorem entry_round_trip_on_full_keys_witness :
    ∃ e : IndexKeyEntry Int,
      DecodeEntry (ageIndexCodec none) (some [1, 30, 7]) (some [9]) =
          some { entry := Entry.indexKeyEntry (some e), err := none } ∧
        e.IndexValues = some [30, 7] ∧
        EncodeEntry (ageIndexCodec none) (Entry.indexKeyEntry (some e)) =
          some { k := some [1, 30, 7], v := sentinel, err := none } :=
  entry_round_trip_on_full_keys (exampleNewKeyCodec none) [1] exampleDescriptor
    ["age"] ["id"] (ageIndexCodec none) rfl [30, 7] (some [1, 30, 7]) (some [9])
    (by decide) (by decide) (by decide)

/-- C16. The primary-key lookup never indexes out of range: for a codec built by
`NewIndexKeyCodec` with one field codec per merged field, and a key that
decodes without error to at least as many values as there are merged fields,
every position of `pkFieldOrder` is within the decoded values, and
`DecodeIndexKey` returns (no panic) the decoded values, exactly `len(P)`
primary-key values and no error. -/
theorem primary_key_lookup_in_range {V M FC S : Type} [Inhabited V]
    (NewKeyCodec : List Byte → MessageDescriptor S → List Name → Except Error (KeyCodec V M FC))
    (pfx : List Byte) (md : MessageDescriptor S) (I P : List Name) (cdc : IndexKeyCodec V M FC)
    (hnew : NewIndexKeyCodec NewKeyCodec pfx md I P = .ok cdc)
    (hfc : cdc.KeyCodec.fieldCodecs.length = (buildKeyFields I P).keyFields.length)
    (k v : Slice Byte) (values : Slice V)
    (hdec : cdc.KeyCodec.Decode (bytesNewReader k) = (values, none))
    (hlen : ((buildKeyFields I P).keyFields.length : Int) ≤ values.len) :
    (∀ e ∈ cdc.pkFieldOrder, 0 ≤ e ∧ e < values.len) ∧
      ∃ pk : List V,
        DecodeIndexKey cdc k v =
            some { indexFields := values, primaryKey := some pk, err := none } ∧
          pk.length = P.length := by
  obtain ⟨hl, hb⟩ := built_pkFieldOrder_bounds NewKeyCodec pfx md I P cdc hnew
  have hb2 : ∀ e ∈ cdc.pkFieldOrder, 0 ≤ e ∧ e < values.len := by
    intro e he
    have := hb e he
    omega
  have hnlt : ¬ values.len < (cdc.KeyCodec.fieldCodecs.length : Int) := by
    rw [hfc]; omega
  obtain ⟨pk, hpk, hpl⟩ := lookupAll_of_bounds values cdc.pkFieldOrder hb2
  refine ⟨hb2, pk, ?_, by rw [hpl, hl]⟩
  rw [DecodeIndexKey_full cdc k v _ hdec hnlt, hpk]
  rfl

/-- Witness of C16: index fields `[id, age]`, primary key `[id]`, key
`[1, 7, 30]`: the one lookup, at position 0, is in range. -/
theorem primary_key_lookup_in_range_witness :
    (∀ e ∈ (idAgeIndexCodec none).pkFieldOrder,
        0 ≤ e ∧ e < Slice.len (some ([7, 30] : List Int))) ∧
      ∃ pk : List Int,
        DecodeIndexKey (idAgeIndexCodec none) (some [1, 7, 30]) none =
            some { indexFields := some [7, 30], primaryKey := some pk, err := none } ∧
          pk.length = (["id"] : List Name).length :=
  primary_key_lookup_in_range (exampleNewKeyCodec none) [1] exampleDescriptor
    ["id", "age"] ["id"] (idAgeIndexCodec none) rfl (by decide) (some [1, 7, 30]) none
    (some [7, 30]) (by decide) (by decide)

/-- C17. No duplicate fields in the merged key: when neither `I` nor `P` repeats
a name, the merged field sequence repeats none (a field of both is there
once, at its index position); in general a name of `I` occurs in the merged
sequence as often as in `I`, and a name absent from `I` as often as in `P`,
so a name repeated in `P` and absent from `I` is appended once per
occurrence. -/
theorem no_duplicate_merged_fields (I P : List Name) :
    (I.Nodup → P.Nodup → (buildKeyFields I P).keyFields.Nodup) ∧
      (∀ f ∈ I, (buildKeyFields I P).keyFields.count f = I.count f) ∧
      (∀ f, f ∉ I → (buildKeyFields I P).keyFields.count f = P.count f) := by
  have hk : (buildKeyFields I P).keyFields = I ++ P.filter (fun f => decide (f ∉ I)) := by
    rw [buildKeyFields_eq, tailFields_indexFieldMapOf]
  rw [hk]
  refine ⟨?_, ?_, ?_⟩
  · intro hI hP
    refine List.Nodup.append hI (hP.filter _) ?_
    intro a ha hb
    have := (List.mem_filter.mp hb).2
    simp at this
    exact this ha
  · intro f hf
    have hz : (P.filter (fun g => decide (g ∉ I))).count f = 0 := by
      apply List.count_eq_zero.mpr
      intro hb
      have := (List.mem_filter.mp hb).2
      simp at this
      exact this hf
    rw [List.count_append, hz, Nat.add_zero]
  · intro f hf
    have hz : I.count f = 0 := List.count_eq_zero.mpr hf
    rw [List.count_append, hz, Nat.zero_add, List.count_filter]
    simpa using hf

/-- Example for C17: index fields `[a, b]` and primary key `[b, c]` merge to
`[a, b, c]`, without a repeated name; index fields `[a]` and primary key
`[b, b]` merge to `[a, b, b]`. -/
theorem no_duplicate_merged_fields_witness :
    (buildKeyFields ["a", "b"] ["b", "c"]).keyFields.Nodup ∧
      (buildKeyFields ["a", "b"] ["b", "c"]).keyFields = ["a", "b", "c"] ∧
      (buildKeyFields ["a"] ["b", "b"]).keyFields.count "b" =
        (["b", "b"] : List Name).count "b" ∧
      (buildKeyFields ["a"] ["b", "b"]).keyFields = ["a", "b", "b"] :=
  ⟨(no_duplicate_merged_fields ["a", "b"] ["b", "c"]).1 (by decide) (by decide),
   by decide,
   (no_duplicate_merged_fields ["a"] ["b", "b"]).2.2 "b" (by decide),
   by decide⟩

/-- C18. Outputs on the failure paths: whenever `EncodeEntry` returns an error,
its key and its value are both nil; `EncodeKVFromMessage` returns the key and
the error of the key codec's `EncodeFromMessage` as they are, also when that
error is not nil, and always the sentinel as value. -/
theorem outputs_on_failure_paths {V M FC : Type} (cdc : IndexKeyCodec V M FC) :
    (∀ (entry : Entry V M) (res : KVResult), EncodeEntry cdc entry = some res →
        res.err ≠ none → res.k = none ∧ res.v = none) ∧
      (∀ (message : M) (e : Error), (cdc.KeyCodec.EncodeFromMessage message).2.2 = some e →
        EncodeKVFromMessage cdc message =
          { k := (cdc.KeyCodec.EncodeFromMessage message).2.1,
            v := some [0],
            err := some e }) := by
  constructor
  · intro entry res hres herr
    rcases EncodeEntry_cases cdc entry res hres with h | ⟨e, _, _, ⟨x, _, h⟩ | ⟨_, h⟩⟩
    · rw [h]; exact ⟨rfl, rfl⟩
    · rw [h]; exact ⟨rfl, rfl⟩
    · rw [h] at herr; exact absurd rfl herr
  · intro message e he
    simp only [EncodeKVFromMessage, sentinel, he]

/-- Example for C18: over a key codec whose encoders fail next to the key byte
`[1]`, `EncodeEntry` returns the error with nil key and nil value, and
`EncodeKVFromMessage` returns the error with the key `[1]` and the sentinel. -/
theorem outputs_on_failure_paths_witness :
    EncodeEntry failingIndexCodec
        (Entry.indexKeyEntry (some (exampleEntry "person" ["age", "id"] (some [7])))) =
        some { k := none, v := none, err := some (Error.other "encode") } ∧
      ((({ k := none, v := none, err := some (Error.other "encode") } : KVResult)).k = none ∧
        (({ k := none, v := none, err := some (Error.other "encode") } : KVResult)).v = none) ∧
      EncodeKVFromMessage failingIndexCodec exampleRecord =
        { k := some [1], v := some [0], err := some (Error.other "encode") } :=
  ⟨by decide,
   (outputs_on_failure_paths failingIndexCodec).1
     (Entry.indexKeyEntry (some (exampleEntry "person" ["age", "id"] (some [7]))))
     { k := none, v := none, err := some (Error.other "encode") } (by decide) (by decide),
   (outputs_on_failure_paths failingIndexCodec).2 exampleRecord (Error.other "encode") rfl⟩

end Ormkv
